import Mathlib

/-!
Verification of the spectrum-analysis core of `rustkorg` (src/src/spectrum.rs and
src/src/panels/visualizer.rs), shallowly embedded in Lean.  `f32` arithmetic is
modelled by exact real arithmetic; machine integer index arithmetic by `Nat`
with explicit `%`.
-/

namespace RustKorg

/-- Number of frequency bands to display (`NUM_BANDS` in spectrum.rs). -/
def NUM_BANDS : ℕ := 32

/-- Sample rate for audio capture (`SAMPLE_RATE` in spectrum.rs). -/
def SAMPLE_RATE : ℕ := 44100

/-- FFT size (`FFT_SIZE` in spectrum.rs). -/
def FFT_SIZE : ℕ := 512

/-- Hop size (`HOP_SIZE` in spectrum.rs). -/
def HOP_SIZE : ℕ := 128

/-- Embeds `get_band_frequency` (spectrum.rs): representative centre frequency of a
band, `min_freq * (max_freq / min_freq).powf((band + 0.5) / NUM_BANDS)` with
`min_freq = 20.0`, `max_freq = 20000.0`. -/
noncomputable def get_band_frequency (band : ℕ) : ℝ :=
  20 * ((20000 : ℝ) / 20) ^ (((band : ℝ) + 0.5) / 32)

theorem get_band_frequency_eq (band : ℕ) :
    get_band_frequency band = 20 * (1000 : ℝ) ^ (((band : ℝ) + 0.5) / 32) := by
  norm_num [get_band_frequency]

theorem get_band_frequency_strictMono {i j : ℕ} (hij : i < j) :
    get_band_frequency i < get_band_frequency j := by
  rw [get_band_frequency_eq, get_band_frequency_eq]
  have hb : (1 : ℝ) < 1000 := by norm_num
  have : ((i : ℝ) + 0.5) / 32 < ((j : ℝ) + 0.5) / 32 := by
    have : (i : ℝ) < j := by exact_mod_cast hij
    linarith
  have := (Real.rpow_lt_rpow_left_iff hb).mpr this
  linarith

theorem get_band_frequency_lower (band : ℕ) : 20 ≤ get_band_frequency band := by
  rw [get_band_frequency_eq]
  have hb : (1 : ℝ) ≤ 1000 := by norm_num
  have ht : (0 : ℝ) ≤ ((band : ℝ) + 0.5) / 32 := by positivity
  have : (1 : ℝ) ≤ (1000 : ℝ) ^ (((band : ℝ) + 0.5) / 32) :=
    Real.one_le_rpow hb ht
  linarith

theorem get_band_frequency_upper {band : ℕ} (hband : band < 32) :
    get_band_frequency band ≤ 20000 := by
  rw [get_band_frequency_eq]
  have hb : (1 : ℝ) < 1000 := by norm_num
  have ht : ((band : ℝ) + 0.5) / 32 ≤ 1 := by
    have : (band : ℝ) ≤ 31 := by exact_mod_cast Nat.lt_succ_iff.mp hband
    linarith
  have h1 : (1000 : ℝ) ^ (((band : ℝ) + 0.5) / 32) ≤ (1000 : ℝ) ^ (1 : ℝ) :=
    (Real.rpow_le_rpow_left_iff hb).mpr ht
  rw [Real.rpow_one] at h1
  linarith

/-- Claim C5: `get_band_frequency` is strictly increasing in band index, and its
value for every valid band index `0..31` lies within `[20, 20000]`. -/
theorem band_frequency_mono_and_range :
    (∀ i j : ℕ, i < j → j < 32 → get_band_frequency i < get_band_frequency j) ∧
    (∀ b : ℕ, b < 32 → 20 ≤ get_band_frequency b ∧ get_band_frequency b ≤ 20000) := by
  constructor
  · intro i j hij _
    exact get_band_frequency_strictMono hij
  · intro b hb
    exact ⟨get_band_frequency_lower b, get_band_frequency_upper hb⟩

/-- Witness for C5 at concrete band indices 0 and 1. -/
theorem band_frequency_mono_and_range_witness :
    get_band_frequency 0 < get_band_frequency 1 ∧
      20 ≤ get_band_frequency 3 ∧ get_band_frequency 3 ≤ 20000 :=
  ⟨band_frequency_mono_and_range.1 0 1 (by decide) (by decide),
   band_frequency_mono_and_range.2 3 (by decide)⟩

/-! ## Band mapper (`calculate_bands`, spectrum.rs lines 256-300) -/

/-- Rust `f32::clamp(lo, hi)`: `min (max x lo) hi`. -/
noncomputable def rclamp (x lo hi : ℝ) : ℝ := min (max x lo) hi

/-- Width in Hz of one FFT bin: `SAMPLE_RATE as f32 / FFT_SIZE as f32`. -/
noncomputable def binSize : ℝ := (SAMPLE_RATE : ℝ) / (FFT_SIZE : ℝ)

/-- Usable (Nyquist-limited) bins: `FFT_SIZE / 2`. -/
def usefulBins : ℕ := FFT_SIZE / 2

/-- Lower frequency edge of a band: `min_freq * (max_freq / min_freq).powf(band / NUM_BANDS)`. -/
noncomputable def freqLow (band : ℕ) : ℝ :=
  20 * ((20000 : ℝ) / 20) ^ ((band : ℝ) / 32)

/-- Upper frequency edge of a band: the same expression at `(band + 1) / NUM_BANDS`. -/
noncomputable def freqHigh (band : ℕ) : ℝ :=
  20 * ((20000 : ℝ) / 20) ^ (((band : ℝ) + 1) / 32)

/-- `(freq_low / bin_size) as usize` clamped with `.min(useful_bins - 1)`.  The Rust
`as usize` cast of a nonnegative float truncates, i.e. is `Nat.floor`. -/
noncomputable def binLow (band : ℕ) : ℕ :=
  min ⌊freqLow band / binSize⌋₊ (usefulBins - 1)

/-- `((freq_high / bin_size) as usize).min(useful_bins - 1).max(bin_low + 1)`. -/
noncomputable def binHigh (band : ℕ) : ℕ :=
  max (min ⌊freqHigh band / binSize⌋₊ (usefulBins - 1)) (binLow band + 1)

/-- The bins summed for a band: the loop `for bin in bin_low..=bin_high` together with
its `if bin < useful_bins` guard. -/
noncomputable def bandBins (band : ℕ) : Finset ℕ :=
  (Finset.Icc (binLow band) (binHigh band)).filter (· < usefulBins)

/-- Sum of complex magnitudes `fft_output[bin].norm()` over the band's in-range bins. -/
noncomputable def bandSum (fft : ℕ → ℂ) (band : ℕ) : ℝ :=
  ∑ bin ∈ bandBins band, Complex.abs (fft bin)

/-- Number of in-range bins accumulated for the band (`count` in the source). -/
noncomputable def bandCount (band : ℕ) : ℕ := (bandBins band).card

/-- The average magnitude `sum / count as f32`. -/
noncomputable def bandAvg (fft : ℕ → ℂ) (band : ℕ) : ℝ :=
  bandSum fft band / (bandCount band : ℝ)

/-- Embeds the per-band body of `calculate_bands` (spectrum.rs): if `count > 0`,
convert the average magnitude to dB (`20 * log10(avg + 1e-10)`) and normalize with
`((db + 60.0) / 60.0).clamp(0.0, 1.0)`; otherwise the entry keeps its `0.0`
initialisation. -/
noncomputable def calculate_bands (fft : ℕ → ℂ) (band : ℕ) : ℝ :=
  if 0 < bandCount band then
    rclamp ((20 * Real.logb 10 (bandAvg fft band + 1e-10) + 60) / 60) 0 1
  else 0

theorem binLow_le (band : ℕ) : binLow band ≤ usefulBins - 1 := min_le_right _ _

theorem binLow_mem_bandBins (band : ℕ) : binLow band ∈ bandBins band := by
  have h1 : binLow band ≤ binHigh band :=
    le_trans (Nat.le_succ _) (le_max_right _ _)
  have h2 : binLow band < usefulBins := by
    have := binLow_le band
    have : binLow band ≤ 255 := by simpa [usefulBins, FFT_SIZE] using this
    simp only [usefulBins, FFT_SIZE]
    omega
  simp only [bandBins, Finset.mem_filter, Finset.mem_Icc]
  exact ⟨⟨le_refl _, h1⟩, h2⟩

theorem bandCount_pos (band : ℕ) : 0 < bandCount band :=
  Finset.card_pos.mpr ⟨binLow band, binLow_mem_bandBins band⟩

/-- Claim C1: for every FFT output and band index, `calculate_bands` averages the
complex magnitudes over the in-range bins of `[bin_low, bin_high]` and returns
`clamp((20*log10(avg + 1e-10) + 60) / 60, 0, 1)`; in particular the returned band
value always lies in `[0, 1]`. -/
theorem calculate_bands_spec (fft : ℕ → ℂ) (band : ℕ) (_hband : band < NUM_BANDS) :
    calculate_bands fft band =
      rclamp ((20 * Real.logb 10 (bandAvg fft band + 1e-10) + 60) / 60) 0 1 ∧
    0 ≤ calculate_bands fft band ∧ calculate_bands fft band ≤ 1 := by
  have hc := bandCount_pos band
  have heq : calculate_bands fft band =
      rclamp ((20 * Real.logb 10 (bandAvg fft band + 1e-10) + 60) / 60) 0 1 := by
    simp [calculate_bands, hc]
  refine ⟨heq, ?_, ?_⟩
  · rw [heq]
    exact le_min (le_max_right _ _) (by norm_num)
  · rw [heq]
    exact min_le_right _ _

/-- Witness for C1 at the all-zero FFT output and band 0. -/
theorem calculate_bands_spec_witness :
    0 ≤ calculate_bands (fun _ => 0) 0 ∧ calculate_bands (fun _ => 0) 0 ≤ 1 :=
  (calculate_bands_spec (fun _ => 0) 0 (by decide)).2

/-! ## Peak tracker (`run_analyzer` loop, spectrum.rs lines 226-243) -/

/-- One per-band per-channel peak update of the analyzer loop: `if bands[i] >
peak_values[i] { peak_values[i] = bands[i] } else { peak_values[i] *= peak_decay }`
with `peak_decay = 0.92`. -/
noncomputable def peakStep (peak newVal : ℝ) : ℝ :=
  if newVal > peak then newVal else peak * 0.92

/-- The peak after `n` consecutive hops in which the band's raw magnitude is `0`,
starting from peak `p0`: `peakStep` iterated with new value `0`. -/
noncomputable def peakDecay (p0 : ℝ) : ℕ → ℝ
  | 0 => p0
  | n + 1 => peakStep (peakDecay p0 n) 0

/-- Claim C2: each hop the peak tracker takes the new band value on attack and
multiplies by `0.92` otherwise; consequently a band whose raw magnitude is `0` for
`n` consecutive hops starting from peak `p0 ≥ 0` decays to exactly `p0 * 0.92 ^ n`. -/
theorem peak_tracker_spec (p0 : ℝ) (hp0 : 0 ≤ p0) (n : ℕ) :
    (∀ p v : ℝ, (v > p → peakStep p v = v) ∧ (¬ v > p → peakStep p v = p * 0.92)) ∧
    peakDecay p0 n = p0 * 0.92 ^ n := by
  constructor
  · intro p v
    constructor
    · intro h; simp [peakStep, h]
    · intro h; simp [peakStep, h]
  · induction n with
    | zero => simp [peakDecay]
    | succ n ih =>
      have hnn : 0 ≤ p0 * 0.92 ^ n := by positivity
      have : ¬ (0 : ℝ) > p0 * 0.92 ^ n := not_lt.mpr hnn
      rw [peakDecay, ih, peakStep, if_neg this]
      ring

/-- Witness for C2 at `p0 = 1`, `n = 2`. -/
theorem peak_tracker_spec_witness : peakDecay 1 2 = 1 * 0.92 ^ 2 :=
  (peak_tracker_spec 1 (by norm_num) 2).2

/-! ## Channel ring buffers (`run_analyzer`, spectrum.rs lines 177-219) -/

/-- The two circular sample buffers (`ring_buffer_left`, `ring_buffer_right`) and the
single shared write cursor `ring_pos`. -/
structure RingState where
  bufL : ℕ → ℝ
  bufR : ℕ → ℝ
  pos : ℕ

/-- Initial ring state: both buffers zero-initialised (`vec![0.0f32; FFT_SIZE]`) and
`ring_pos = 0`. -/
def initRing : RingState := ⟨fun _ => 0, fun _ => 0, 0⟩

/-- One iteration of the deinterleaving loop body: write the left and right sample at
the shared cursor, then `ring_pos = (ring_pos + 1) % FFT_SIZE`. -/
def pushFrame (s : RingState) (x : ℝ × ℝ) : RingState :=
  { bufL := Function.update s.bufL s.pos x.1
    bufR := Function.update s.bufR s.pos x.2
    pos := (s.pos + 1) % FFT_SIZE }

/-- Push a list of stereo frames sample by sample (the `for i in 0..HOP_SIZE` loop,
where a hop supplies exactly `HOP_SIZE` frames). -/
def pushList (s : RingState) (xs : List (ℝ × ℝ)) : RingState := xs.foldl pushFrame s

/-- Push a sequence of hops. -/
def pushHops (s : RingState) (hops : List (List (ℝ × ℝ))) : RingState :=
  hops.foldl pushList s

/-- Read the `FFT_SIZE` entries of a buffer starting at the cursor, index
`(pos + i) % FFT_SIZE`, exactly as `calculate_bands_from_ring` does. -/
def readOut (buf : ℕ → ℝ) (pos : ℕ) : List ℝ :=
  (List.range FFT_SIZE).map (fun i => buf ((pos + i) % FFT_SIZE))

theorem readOut_length (buf : ℕ → ℝ) (pos : ℕ) : (readOut buf pos).length = FFT_SIZE := by
  simp [readOut]

theorem readOut_getElem (buf : ℕ → ℝ) (pos i : ℕ) (h : i < (readOut buf pos).length) :
    (readOut buf pos)[i] = buf ((pos + i) % FFT_SIZE) := by
  simp only [readOut, List.getElem_map, List.getElem_range]

set_option maxRecDepth 10000 in
theorem readOut_update (buf : ℕ → ℝ) (p : ℕ) (hp : p < FFT_SIZE) (v : ℝ) :
    readOut (Function.update buf p v) ((p + 1) % FFT_SIZE) =
      (readOut buf p).drop 1 ++ [v] := by
  have e : FFT_SIZE = 512 := rfl
  have hlen : ((readOut buf p).drop 1).length = 511 := by
    rw [List.length_drop, readOut_length]
    omega
  apply List.ext_getElem
  · rw [readOut_length]
    simp only [List.length_append, List.length_drop, readOut_length,
      List.length_cons, List.length_nil]
    omega
  · intro i h1 h2
    have hi : i < 512 := by
      rw [readOut_length] at h1
      omega
    rw [readOut_getElem _ _ _ h1, Nat.mod_add_mod, e]
    by_cases hlast : i = 511
    · subst hlast
      have hidx : (p + 1 + 511) % 512 = p := by omega
      rw [hidx, Function.update_same]
      rw [List.getElem_append_right (by omega)]
      simp [hlen]
    · have hi' : i < 511 := by omega
      have hidx : (p + 1 + i) % 512 ≠ p := by omega
      rw [Function.update_noteq hidx]
      rw [List.getElem_append_left (by omega)]
      simp only [List.getElem_drop]
      rw [readOut_getElem _ _ _ (by rw [readOut_length]; omega), e]
      congr 1
      omega

set_option maxRecDepth 10000 in
theorem pushList_spec (xs : List (ℝ × ℝ)) : ∀ s : RingState, s.pos < FFT_SIZE →
    (pushList s xs).pos = (s.pos + xs.length) % FFT_SIZE ∧
    readOut (pushList s xs).bufL (pushList s xs).pos =
      (readOut s.bufL s.pos ++ xs.map Prod.fst).drop xs.length ∧
    readOut (pushList s xs).bufR (pushList s xs).pos =
      (readOut s.bufR s.pos ++ xs.map Prod.snd).drop xs.length := by
  induction xs with
  | nil =>
    intro s hs
    simp [pushList, Nat.mod_eq_of_lt hs]
  | cons x xs ih =>
    intro s hs
    have hstep : pushList s (x :: xs) = pushList (pushFrame s x) xs := rfl
    have hpos' : (pushFrame s x).pos < FFT_SIZE := by
      simp only [pushFrame, FFT_SIZE]
      omega
    obtain ⟨ihpos, ihL, ihR⟩ := ih (pushFrame s x) hpos'
    have hsplit : ∀ (buf : ℕ → ℝ) (w : ℝ) (M : List ℝ),
        (readOut buf s.pos).drop 1 ++ [w] ++ M =
          (readOut buf s.pos ++ (w :: M)).drop 1 := by
      intro buf w M
      rw [List.drop_append_eq_append_drop, readOut_length]
      have h10 : 1 - FFT_SIZE = 0 := rfl
      rw [h10, List.drop_zero, List.append_assoc, List.singleton_append]
    have hA : ∀ (buf : ℕ → ℝ) (w : ℝ) (M : List ℝ),
        (((readOut buf s.pos).drop 1 ++ [w]) ++ M).drop xs.length =
          (readOut buf s.pos ++ (w :: M)).drop (xs.length + 1) := by
      intro buf w M
      rw [hsplit buf w M, List.drop_drop]
      congr 1
      omega
    refine ⟨?_, ?_, ?_⟩
    · rw [hstep, ihpos]
      simp only [pushFrame, List.length_cons]
      rw [Nat.mod_add_mod]
      congr 1
      omega
    · rw [hstep, ihL]
      have hbuf : readOut (pushFrame s x).bufL (pushFrame s x).pos =
          (readOut s.bufL s.pos).drop 1 ++ [x.1] := by
        simp only [pushFrame]
        exact readOut_update s.bufL s.pos hs x.1
      rw [hbuf, List.map_cons, List.length_cons, hA]
    · rw [hstep, ihR]
      have hbuf : readOut (pushFrame s x).bufR (pushFrame s x).pos =
          (readOut s.bufR s.pos).drop 1 ++ [x.2] := by
        simp only [pushFrame]
        exact readOut_update s.bufR s.pos hs x.2
      rw [hbuf, List.map_cons, List.length_cons, hA]

theorem pushHops_eq_pushList_flatten (hops : List (List (ℝ × ℝ))) :
    ∀ s : RingState, pushHops s hops = pushList s hops.flatten := by
  induction hops with
  | nil => intro s; rfl
  | cons h t ih =>
    intro s
    have hcons : pushHops s (h :: t) = pushHops (pushList s h) t := rfl
    rw [hcons, ih, List.flatten_cons]
    simp only [pushList, List.foldl_append]

theorem flatten_length_of_hop_len (hops : List (List (ℝ × ℝ)))
    (hlen : ∀ hop ∈ hops, hop.length = HOP_SIZE) :
    hops.flatten.length = HOP_SIZE * hops.length := by
  induction hops with
  | nil => simp
  | cons h t ih =>
    have hh : h.length = HOP_SIZE := hlen h (by simp)
    have ht : ∀ hop ∈ t, hop.length = HOP_SIZE := fun hop hm => hlen hop (by simp [hm])
    simp only [List.flatten_cons, List.length_append, ih ht, hh, List.length_cons]
    ring

theorem readOut_initRing_left : readOut initRing.bufL initRing.pos =
    List.replicate FFT_SIZE 0 := by
  simp [readOut, initRing]

theorem readOut_initRing_right : readOut initRing.bufR initRing.pos =
    List.replicate FFT_SIZE 0 := by
  simp [readOut, initRing]

/-- Claim C3: each hop appends exactly `HOP_SIZE` samples per channel under the single
shared cursor, which after `k` hops stands at `(HOP_SIZE * k) % FFT_SIZE`; reading the
`FFT_SIZE` entries at `(cursor + i) % FFT_SIZE` yields exactly the most recent
`FFT_SIZE` samples of each channel in arrival order (the suffix of the zero-initialised
buffer contents followed by the pushed stream). -/
theorem ring_buffer_spec (hops : List (List (ℝ × ℝ)))
    (hlen : ∀ hop ∈ hops, hop.length = HOP_SIZE) :
    (pushHops initRing hops).pos = (HOP_SIZE * hops.length) % FFT_SIZE ∧
    readOut (pushHops initRing hops).bufL (pushHops initRing hops).pos =
      (List.replicate FFT_SIZE 0 ++ hops.flatten.map Prod.fst).drop
        hops.flatten.length ∧
    readOut (pushHops initRing hops).bufR (pushHops initRing hops).pos =
      (List.replicate FFT_SIZE 0 ++ hops.flatten.map Prod.snd).drop
        hops.flatten.length := by
  have hpos0 : initRing.pos < FFT_SIZE := by simp [initRing, FFT_SIZE]
  obtain ⟨hpos, hL, hR⟩ := pushList_spec hops.flatten initRing hpos0
  rw [pushHops_eq_pushList_flatten]
  refine ⟨?_, ?_, ?_⟩
  · rw [hpos, flatten_length_of_hop_len hops hlen]
    simp only [initRing, Nat.zero_add]
  · rw [hL, readOut_initRing_left]
  · rw [hR, readOut_initRing_right]

/-- Witness for C3 with a single all-zero hop of 128 frames. -/
theorem ring_buffer_spec_witness :
    (pushHops initRing [List.replicate HOP_SIZE ((0 : ℝ), (0 : ℝ))]).pos =
      (HOP_SIZE * 1) % FFT_SIZE :=
  (ring_buffer_spec [List.replicate HOP_SIZE ((0 : ℝ), (0 : ℝ))]
    (by simp)).1

/-! ## Shared snapshot (`SpectrumData`, spectrum.rs lines 19-42) -/

/-- Embeds `SpectrumData`: per-band magnitudes and peaks for both channels plus the
`running` flag.  The fixed-size `[f32; NUM_BANDS]` arrays are modelled as functions
on band indices. -/
structure SpectrumData where
  bands : ℕ → ℝ
  peaks : ℕ → ℝ
  bands_right : ℕ → ℝ
  peaks_right : ℕ → ℝ
  running : Bool

/-- `SpectrumData::default()`: all-zero arrays, `running: false`. -/
def defaultSpectrumData : SpectrumData :=
  ⟨fun _ => 0, fun _ => 0, fun _ => 0, fun _ => 0, false⟩

/-! ## Display smoothing and waterfall (`VisualizerState`, visualizer.rs lines 5-75) -/

/-- Maximum waterfall history rows (`WATERFALL_HISTORY` in visualizer.rs). -/
def WATERFALL_HISTORY : ℕ := 128

/-- Embeds `fn lerp(a, b, t) = a + (b - a) * t.clamp(0.0, 1.0)` (visualizer.rs). -/
noncomputable def lerp (a b t : ℝ) : ℝ := a + (b - a) * rclamp t 0 1

/-- Embeds `VisualizerState` (visualizer.rs): smoothed display arrays for both
channels, the waterfall history rows, and the waterfall write position. -/
structure VisualizerState where
  display_bands : ℕ → ℝ
  display_peaks : ℕ → ℝ
  display_bands_right : ℕ → ℝ
  display_peaks_right : ℕ → ℝ
  waterfall_history : ℕ → (ℕ → ℝ)
  waterfall_pos : ℕ

/-- `VisualizerState::default()`: zero arrays, zero history rows, write position 0. -/
def initVisualizer : VisualizerState :=
  ⟨fun _ => 0, fun _ => 0, fun _ => 0, fun _ => 0, fun _ => (fun _ => 0), 0⟩

/-- The combined stereo row written into the waterfall:
`combined[i] = (target.bands[i] + target.bands_right[i]) * 0.5`. -/
noncomputable def combinedRow (target : SpectrumData) : ℕ → ℝ :=
  fun i => (target.bands i + target.bands_right i) * 0.5

/-- Embeds `VisualizerState::update` (visualizer.rs lines 35-70): lerp the band
arrays toward the snapshot with rate `(20 * dt).min(1.0)`, peaks with instant attack
and `2 * dt` decay, then write the combined row at `waterfall_pos` and advance the
position modulo `WATERFALL_HISTORY`. -/
noncomputable def VisualizerState.update (s : VisualizerState) (target : SpectrumData)
    (dt : ℝ) : VisualizerState :=
  { display_bands := fun i =>
      lerp (s.display_bands i) (target.bands i) (min (20 * dt) 1)
    display_bands_right := fun i =>
      lerp (s.display_bands_right i) (target.bands_right i) (min (20 * dt) 1)
    display_peaks := fun i =>
      if target.peaks i > s.display_peaks i then target.peaks i
      else lerp (s.display_peaks i) (target.peaks i) (2 * dt)
    display_peaks_right := fun i =>
      if target.peaks_right i > s.display_peaks_right i then target.peaks_right i
      else lerp (s.display_peaks_right i) (target.peaks_right i) (2 * dt)
    waterfall_history :=
      Function.update s.waterfall_history s.waterfall_pos (combinedRow target)
    waterfall_pos := (s.waterfall_pos + 1) % WATERFALL_HISTORY }

/-- A sequence of per-frame `update` calls with their targets and time deltas. -/
noncomputable def applyUpdates (s : VisualizerState)
    (l : List (SpectrumData × ℝ)) : VisualizerState :=
  l.foldl (fun st p => st.update p.1 p.2) s

theorem applyUpdates_pos (l : List (SpectrumData × ℝ)) :
    ∀ s : VisualizerState, s.waterfall_pos < WATERFALL_HISTORY →
      (applyUpdates s l).waterfall_pos =
        (s.waterfall_pos + l.length) % WATERFALL_HISTORY := by
  induction l with
  | nil =>
    intro s hs
    simp [applyUpdates, Nat.mod_eq_of_lt hs]
  | cons x xs ih =>
    intro s hs
    have hstep : applyUpdates s (x :: xs) = applyUpdates (s.update x.1 x.2) xs := rfl
    have hlt : (s.update x.1 x.2).waterfall_pos < WATERFALL_HISTORY := by
      have e : WATERFALL_HISTORY = 128 := rfl
      simp only [VisualizerState.update, e]
      omega
    rw [hstep, ih _ hlt]
    simp only [VisualizerState.update, List.length_cons]
    rw [Nat.mod_add_mod]
    congr 1
    omega

theorem applyUpdates_history (l : List (SpectrumData × ℝ)) (k : ℕ)
    (hk : k < l.length) (hw : l.length ≤ k + WATERFALL_HISTORY) :
    (applyUpdates initVisualizer l).waterfall_history (k % WATERFALL_HISTORY) =
      combinedRow (l.get ⟨k, hk⟩).1 := by
  have e : WATERFALL_HISTORY = 128 := rfl
  induction l using List.reverseRecOn with
  | nil => simp at hk
  | append_singleton l x ih =>
    have happ : applyUpdates initVisualizer (l ++ [x]) =
        (applyUpdates initVisualizer l).update x.1 x.2 := by
      simp [applyUpdates, List.foldl_append]
    have hpos : (applyUpdates initVisualizer l).waterfall_pos =
        l.length % WATERFALL_HISTORY := by
      have := applyUpdates_pos l initVisualizer (by simp [initVisualizer, WATERFALL_HISTORY])
      simpa [initVisualizer] using this
    rw [happ]
    simp only [VisualizerState.update]
    by_cases hkl : k = l.length
    · subst hkl
      rw [← hpos, Function.update_same]
      have : (l ++ [x]).get ⟨l.length, hk⟩ = x := by
        simp [List.get_eq_getElem]
      rw [this]
    · have hklt : k < l.length := by
        have := hk
        simp only [List.length_append, List.length_cons, List.length_nil] at this
        omega
      have hne : k % WATERFALL_HISTORY ≠ (applyUpdates initVisualizer l).waterfall_pos := by
        rw [hpos]
        have hw' : l.length ≤ k + 127 := by
          have h2 := hw
          simp only [List.length_append, List.length_cons, List.length_nil, e] at h2
          omega
        simp only [e]
        omega
      rw [Function.update_noteq hne]
      have hget : (l ++ [x]).get ⟨k, hk⟩ = l.get ⟨k, hklt⟩ := by
        simp [List.get_eq_getElem, List.getElem_append_left hklt]
      rw [hget]
      refine ih hklt ?_
      simp only [List.length_append, List.length_cons, List.length_nil] at hw
      omega

/-- Claim C4: starting from write position 0 on the 128-row history, after `k` update
calls the write position is `k % 128`; each call advances the position by exactly one
modulo 128; and the combined-channel row written during the `k`-th update (0-based) is
readable at history index `k % 128` while fewer than 128 further updates have
occurred. -/
theorem waterfall_spec (l : List (SpectrumData × ℝ)) (k : ℕ)
    (hk : k < l.length) (hw : l.length ≤ k + WATERFALL_HISTORY) :
    (applyUpdates initVisualizer l).waterfall_pos = l.length % WATERFALL_HISTORY ∧
    (∀ (s : VisualizerState) (t : SpectrumData) (dt : ℝ),
        (s.update t dt).waterfall_pos = (s.waterfall_pos + 1) % WATERFALL_HISTORY) ∧
    (applyUpdates initVisualizer l).waterfall_history (k % WATERFALL_HISTORY) =
      combinedRow (l.get ⟨k, hk⟩).1 := by
  refine ⟨?_, fun s t dt => rfl, applyUpdates_history l k hk hw⟩
  have := applyUpdates_pos l initVisualizer (by simp [initVisualizer, WATERFALL_HISTORY])
  simpa [initVisualizer] using this

/-- Witness for C4 with one update call and `k = 0`. -/
theorem waterfall_spec_witness :
    (applyUpdates initVisualizer [(defaultSpectrumData, 1)]).waterfall_pos =
      [(defaultSpectrumData, (1 : ℝ))].length % WATERFALL_HISTORY :=
  (waterfall_spec [(defaultSpectrumData, 1)] 0 (by simp)
    (by simp [WATERFALL_HISTORY])).1

/-- Claim C9: display smoothing is idempotent at steady state: if the snapshot's band
values equal the displayed band values for every band (both channels), then for any
positive `dt` an `update` leaves all displayed band values unchanged. -/
theorem smoothing_idempotent (s : VisualizerState) (t : SpectrumData) (dt : ℝ)
    (_hdt : 0 < dt)
    (hb : ∀ i, t.bands i = s.display_bands i)
    (hbr : ∀ i, t.bands_right i = s.display_bands_right i) :
    (s.update t dt).display_bands = s.display_bands ∧
    (s.update t dt).display_bands_right = s.display_bands_right := by
  constructor
  · funext i
    simp only [VisualizerState.update, lerp, hb i]
    ring
  · funext i
    simp only [VisualizerState.update, lerp, hbr i]
    ring

/-- Witness for C9 at the zero snapshot and zero display state with `dt = 1`. -/
theorem smoothing_idempotent_witness :
    (initVisualizer.update defaultSpectrumData 1).display_bands =
      initVisualizer.display_bands :=
  (smoothing_idempotent initVisualizer defaultSpectrumData 1 (by norm_num)
    (fun _ => rfl) (fun _ => rfl)).1

/-! ## Windowing and transform stage (`calculate_bands_from_ring`, spectrum.rs
lines 302-327) -/

/-- The Hann window coefficient
`0.5 * (1 - cos(2π i / (FFT_SIZE - 1)))` computed per index in the source. -/
noncomputable def hannWindow (i : ℕ) : ℝ :=
  0.5 * (1 - Real.cos (2 * Real.pi * (i : ℝ) / ((FFT_SIZE : ℝ) - 1)))

/-- The forward discrete Fourier transform of size `FFT_SIZE` computed by the
`rustfft` planner, in exact arithmetic: `X k = Σ j, x j · exp(-2πi·j·k/N)`. -/
noncomputable def dft (x : ℕ → ℂ) (k : ℕ) : ℂ :=
  ∑ j ∈ Finset.range FFT_SIZE,
    x j * Complex.exp (-2 * Real.pi * Complex.I * (j : ℂ) * (k : ℂ) / (FFT_SIZE : ℂ))

/-- Embeds `calculate_bands_from_ring`: read `FFT_SIZE` samples oldest-to-newest from
the ring buffer starting at the cursor, apply the Hann window, transform, band-map. -/
noncomputable def calculate_bands_from_ring (ringBuffer : ℕ → ℝ) (ringPos : ℕ) :
    ℕ → ℝ :=
  calculate_bands
    (dft (fun i => ((ringBuffer ((ringPos + i) % FFT_SIZE) * hannWindow i : ℝ) : ℂ)))

/-! ## Analyzer lifecycle (`SpectrumAnalyzer` and `run_analyzer`, spectrum.rs
lines 44-253)

The capture thread and the main thread communicate through the mutex-protected
`SpectrumData` and the shared stop flag.  We model the system as a state machine:
the shared state plus the capture thread's control point.  A scheduler step
(`threadStep`) runs the thread up to its next interaction, fed with the outcome of
the external call it performs (`Simple::new` success for the opening phase, the
`simple.read` result for the loop body). -/

/-- The capture loop's thread-local state: the two ring buffers with their shared
cursor, and the persistent per-band peak values for both channels. -/
structure LoopState where
  ring : RingState
  peaksL : ℕ → ℝ
  peaksR : ℕ → ℝ

/-- The loop locals as initialised at the top of `run_analyzer`: zeroed ring buffers,
`ring_pos = 0`, zeroed peak values. -/
def initLoopState : LoopState := ⟨initRing, fun _ => 0, fun _ => 0⟩

/-- The mutex-protected snapshot together with the shared stop flag. -/
structure Shared where
  data : SpectrumData
  stopFlag : Bool

/-- The capture thread's control point: about to open the capture source
(`Simple::new`), about to check the stop flag at the top of the loop, about to run
one loop body (read + process), or exited (also used when no thread exists). -/
inductive ThreadPhase where
  | opening (ls : LoopState)
  | atCheck (ls : LoopState)
  | atBody (ls : LoopState)
  | exited

/-- Whole-system state: shared state plus the capture thread phase. -/
structure Sys where
  sh : Shared
  thread : ThreadPhase

/-- Environment input consumed by one thread step: whether `Simple::new` succeeds
(used only in the opening phase), and the read outcome (used only in the loop body;
`none` is a read error, `some frames` the deinterleaved stereo frames of one hop). -/
structure StepInput where
  openOk : Bool
  read : Option (List (ℝ × ℝ))

/-- One iteration body of the capture loop after the stop-flag check (spectrum.rs
lines 199-251): on a read error, `continue` — nothing changes; on success, push the
hop into the ring buffers, recompute both channels' bands, update the peak values,
and write bands/peaks (and only those fields) into the snapshot. -/
noncomputable def bodyExec (d : SpectrumData) (ls : LoopState)
    (r : Option (List (ℝ × ℝ))) : SpectrumData × LoopState :=
  match r with
  | none => (d, ls)
  | some frames =>
    let ring' := pushList ls.ring frames
    let bandsL := calculate_bands_from_ring ring'.bufL ring'.pos
    let bandsR := calculate_bands_from_ring ring'.bufR ring'.pos
    let peaksL' := fun i => peakStep (ls.peaksL i) (bandsL i)
    let peaksR' := fun i => peakStep (ls.peaksR i) (bandsR i)
    ({ d with bands := bandsL, peaks := peaksL',
              bands_right := bandsR, peaks_right := peaksR' },
     ⟨ring', peaksL', peaksR'⟩)

/-- One scheduler step of the capture thread.  Opening failure (spectrum.rs lines
168-174) sets `running := false` and exits; the top-of-loop check exits when the stop
flag is set; the body runs `bodyExec`. -/
noncomputable def threadStep (s : Sys) (inp : StepInput) : Sys :=
  match s.thread with
  | .exited => s
  | .opening ls =>
      if inp.openOk then { s with thread := .atCheck ls }
      else { sh := { s.sh with data := { s.sh.data with running := false } },
             thread := .exited }
  | .atCheck ls =>
      if s.sh.stopFlag then { s with thread := .exited }
      else { s with thread := .atBody ls }
  | .atBody ls =>
      let p := bodyExec s.sh.data ls inp.read
      { sh := { s.sh with data := p.1 }, thread := .atCheck p.2 }

/-- A finite sequence of scheduler steps. -/
noncomputable def threadSteps (s : Sys) (l : List StepInput) : Sys :=
  l.foldl threadStep s

/-- `get_data()` (spectrum.rs lines 105-107): a value copy of the snapshot. -/
def get_data (sh : Shared) : SpectrumData := sh.data

/-- The writes `stop()` performs before joining (spectrum.rs lines 89-97): set the
shared stop flag, then set the snapshot's `running` field to `false`. -/
def mainStopWrites (s : Sys) : Sys :=
  { s with sh := { data := { s.sh.data with running := false }, stopFlag := true } }

/-- The first part of `start()` after the internal stop-and-join of any previous
thread (spectrum.rs lines 64-79): clear the stop flag and spawn the capture thread,
which begins by opening the capture source.  The old thread is already joined when
these writes happen, so no thread step can interleave before the spawn. -/
def mainStartSpawn (s : Sys) : Sys :=
  { sh := { data := s.sh.data, stopFlag := false },
    thread := .opening initLoopState }

/-- The final write of `start()` (spectrum.rs lines 83-85): set `running := true`.
In the source this happens only after the thread has been spawned, so steps of the
new thread — including a failing open — may interleave before this write. -/
def mainStartSetRunning (s : Sys) : Sys :=
  { s with sh := { s.sh with data := { s.sh.data with running := true } } }

/-- `SpectrumAnalyzer::new()`: default snapshot, clear stop flag, no thread. -/
def initSys : Sys := ⟨⟨defaultSpectrumData, false⟩, .exited⟩

theorem bodyExec_preserves_running (d : SpectrumData) (ls : LoopState)
    (r : Option (List (ℝ × ℝ))) : (bodyExec d ls r).1.running = d.running := by
  cases r <;> rfl

theorem threadStep_stopFlag (s : Sys) (inp : StepInput) :
    (threadStep s inp).sh.stopFlag = s.sh.stopFlag := by
  obtain ⟨sh, th⟩ := s
  cases th <;> simp only [threadStep]
  · by_cases h : inp.openOk <;> simp [h]
  · by_cases h : sh.stopFlag <;> simp [h]

theorem threadStep_running_false (s : Sys) (inp : StepInput)
    (h : s.sh.data.running = false) : (threadStep s inp).sh.data.running = false := by
  obtain ⟨sh, th⟩ := s
  cases th <;> simp only [threadStep]
  · by_cases ho : inp.openOk
    · simpa [ho] using h
    · simp [ho]
  · by_cases hf : sh.stopFlag
    · simpa [hf] using h
    · simpa [hf] using h
  · simpa [bodyExec_preserves_running] using h
  · exact h

theorem threadSteps_running_false (l : List StepInput) :
    ∀ s : Sys, s.sh.data.running = false →
      (threadSteps s l).sh.data.running = false := by
  induction l with
  | nil => intro s h; exact h
  | cons i t ih =>
    intro s h
    exact ih (threadStep s i) (threadStep_running_false s i h)

theorem threadStep_exited (s : Sys) (inp : StepInput) (h : s.thread = .exited) :
    threadStep s inp = s := by
  obtain ⟨sh, th⟩ := s
  cases h
  rfl

theorem threadSteps_exited (l : List StepInput) :
    ∀ s : Sys, s.thread = .exited → threadSteps s l = s := by
  induction l with
  | nil => intro s _; rfl
  | cons i t ih =>
    intro s h
    show threadSteps (threadStep s i) t = s
    rw [threadStep_exited s i h]
    exact ih s h

/-- Lemma for the join bound: once the stop flag is set, the capture thread reaches
`exited` within two scheduler steps from any control point, for every input. -/
theorem exits_within_two (s : Sys) (hflag : s.sh.stopFlag = true)
    (i1 i2 : StepInput) : (threadStep (threadStep s i1) i2).thread = .exited := by
  obtain ⟨sh, th⟩ := s
  have hku : sh.stopFlag = true := hflag
  cases th
  case opening ls =>
    by_cases ho : i1.openOk
    · have h1 : threadStep ⟨sh, .opening ls⟩ i1 = ⟨sh, .atCheck ls⟩ := by
        simp [threadStep, ho]
      rw [h1]
      simp [threadStep, hku]
    · have h1 : (threadStep ⟨sh, .opening ls⟩ i1).thread = .exited := by
        simp [threadStep, ho]
      rw [threadStep_exited _ i2 h1]
      exact h1
  case atCheck ls =>
    have h1 : (threadStep ⟨sh, .atCheck ls⟩ i1).thread = .exited := by
      simp [threadStep, hku]
    rw [threadStep_exited _ i2 h1]
    exact h1
  case atBody ls =>
    have h1 : threadStep ⟨sh, .atBody ls⟩ i1 =
        ⟨{ sh with data := (bodyExec sh.data ls i1.read).1 },
          .atCheck (bodyExec sh.data ls i1.read).2⟩ := rfl
    rw [h1]
    simp [threadStep, hku]
  case exited =>
    rw [threadStep_exited _ i1 rfl, threadStep_exited _ i2 rfl]

/-- Claim C6: `stop()` sets the shared stop flag and marks the snapshot's `running`
field `false`; in the start-then-stop scenario — `start`'s spawn of the capture
thread, any interleaved thread steps, `start`'s final write of `running := true`,
any further thread steps, then the stop writes — the thread reaches `exited` within
two further scheduler steps for every environment input (so the join performed by
`stop()` terminates, and `stop()` returns only once the thread has actually
exited); and no thread code ever sets `running` back to `true`, so any subsequent
`get_data()` reports `running = false`. -/
theorem stop_spec (s : Sys) (mid post : List StepInput) (i1 i2 : StepInput)
    (l : List StepInput) :
    (mainStopWrites (threadSteps (mainStartSetRunning
        (threadSteps (mainStartSpawn s) mid)) post)).sh.stopFlag = true ∧
    (mainStopWrites (threadSteps (mainStartSetRunning
        (threadSteps (mainStartSpawn s) mid)) post)).sh.data.running = false ∧
    (threadStep (threadStep (mainStopWrites (threadSteps (mainStartSetRunning
        (threadSteps (mainStartSpawn s) mid)) post)) i1) i2).thread = .exited ∧
    (get_data (threadSteps (mainStopWrites (threadSteps (mainStartSetRunning
        (threadSteps (mainStartSpawn s) mid)) post)) l).sh).running = false :=
  ⟨rfl, rfl, exits_within_two _ rfl i1 i2, threadSteps_running_false l _ rfl⟩

/-- Claim C7 is falsified by a write-ordering race in the source: `start()` spawns
the capture thread (spectrum.rs line 77) before its final `running := true` write
(lines 83-85), while the open-failure path of the thread (lines 168-174) writes
`running := false`.  When the open fails before `start`'s final write, the failure
report is clobbered: from the fresh analyzer, the spawn, one failing-open thread
step, and then `start`'s `running := true` write leave the thread exited with
`running = true`, and every later scheduler step keeps `get_data().running = true`
— the caller never observes `running = false` although the thread is gone. -/
theorem open_failure_race :
    (mainStartSetRunning
        (threadStep (mainStartSpawn initSys) ⟨false, none⟩)).thread =
      ThreadPhase.exited ∧
    ∀ l : List StepInput,
      (get_data (threadSteps (mainStartSetRunning
          (threadStep (mainStartSpawn initSys) ⟨false, none⟩)) l).sh).running =
        true := by
  constructor
  · rfl
  · intro l
    rw [threadSteps_exited l _ rfl]
    rfl

/-- Claim C8: a transient read error in the capture loop body leaves the entire
shared state (snapshot and stop flag) and the entire thread-local state (ring
buffers, cursor, peak values) unchanged, and the thread continues to the next
iteration instead of terminating. -/
theorem transient_read_failure (s : Sys) (ls : LoopState) (inp : StepInput)
    (hphase : s.thread = .atBody ls) (hread : inp.read = none) :
    (threadStep s inp).sh = s.sh ∧ (threadStep s inp).thread = .atCheck ls := by
  obtain ⟨sh, th⟩ := s
  cases hphase
  constructor
  · simp [threadStep, bodyExec, hread]
  · simp [threadStep, bodyExec, hread]

/-- Witness for C8 at a concrete system state in the loop body with a failing read. -/
theorem transient_read_failure_witness :
    (threadStep ⟨⟨defaultSpectrumData, false⟩, .atBody initLoopState⟩
        ⟨true, none⟩).sh = (⟨defaultSpectrumData, false⟩ : Shared) :=
  (transient_read_failure ⟨⟨defaultSpectrumData, false⟩, .atBody initLoopState⟩
    initLoopState ⟨true, none⟩ rfl rfl).1

/-! ## Note naming (`frequency_to_note`, spectrum.rs lines 338-358) -/

/-- Truncation toward zero of a real number: the semantics of the integral part used
by the Rust float remainder operator. -/
noncomputable def rtrunc (x : ℝ) : ℤ := if x < 0 then ⌈x⌉ else ⌊x⌋

/-- Rust float remainder `a % b`, which is `a - b * trunc(a / b)`. -/
noncomputable def fmod (a b : ℝ) : ℝ := a - b * rtrunc (a / b)

/-- The note names array from the source (twelve chromatic names starting at C). -/
def notes : List String :=
  ["C", "C#", "D", "D#", "E", "F"] ++ ["F#", "G", "G#", "A", "A#", "B"]

/-- Embeds `12.0 * (freq / a4).log2()` with `a4 = 440.0`. -/
noncomputable def semitonesFromA4 (freq : ℝ) : ℝ := 12 * Real.logb 2 (freq / 440)

/-- Embeds `semitones_from_a4 + 57.0` (A4 is 57 semitones above C0). -/
noncomputable def semitonesFromC0 (freq : ℝ) : ℝ := semitonesFromA4 freq + 57

/-- Embeds `(semitones_from_c0 / 12.0).floor() as i32`. -/
noncomputable def octaveOf (freq : ℝ) : ℤ := ⌊semitonesFromC0 freq / 12⌋

/-- Embeds `(semitones_from_c0 % 12.0) as usize`: a `usize` cast of a nonnegative
float truncates, and of a negative float saturates to zero — both are `Nat.floor`. -/
noncomputable def noteIndexOf (freq : ℝ) : ℕ := ⌊fmod (semitonesFromC0 freq) 12⌋₊

/-- Decimal digit character, `Char.ofNat (48 + d)`. -/
def digitChar (d : ℕ) : Char := Char.ofNat (48 + d)

/-- Decimal digit characters of a natural number, most significant first. -/
def decimalDigits (n : ℕ) : List Char := ((Nat.digits 10 n).reverse).map digitChar

/-- Decimal rendering of a natural number. -/
def natToString (n : ℕ) : String := if n = 0 then "0" else String.mk (decimalDigits n)

/-- Decimal rendering of an integer, the display format of Rust integers. -/
def intToString (n : ℤ) : String :=
  if n < 0 then "-" ++ natToString n.natAbs else natToString n.toNat

/-- The note-name branch output: `notes[note_index]` followed by the octave. -/
noncomputable def noteString (ni : ℕ) (octave : ℤ) : String :=
  notes.getD ni "" ++ intToString octave

/-- The fallback branch output: the frequency rendered with zero decimal places plus
a Hz suffix.  Rendering is modelled with round-half-up; Rust's display rounding
(ties to even) differs from this only at exact half-integer reals. -/
noncomputable def hzString (freq : ℝ) : String := intToString ⌊freq + 1 / 2⌋ ++ " Hz"

/-- Embeds `frequency_to_note` (spectrum.rs): out-of-range sentinels, then the note
name whenever `octave >= 0 && octave < 10 && note_index < notes.len()`, otherwise
the rendered frequency. -/
noncomputable def frequency_to_note (freq : ℝ) : String :=
  if freq < 20 then "< 20 Hz"
  else if freq > 20000 then "> 20k Hz"
  else if 0 ≤ octaveOf freq ∧ octaveOf freq < 10 ∧ noteIndexOf freq < notes.length
    then noteString (noteIndexOf freq) (octaveOf freq)
  else hzString freq

theorem string_ne_of_head (a b : String) (ca cb : Char) (ha : a.data.head? = some ca)
    (hb : b.data.head? = some cb) (hne : ca ≠ cb) : a ≠ b := by
  intro he
  rw [he, hb] at ha
  exact hne (Option.some.inj ha).symm

theorem noteString_ne (ni : ℕ) (hni : ni < 12) (o : ℤ) :
    noteString ni o ≠ "< 20 Hz" ∧ noteString ni o ≠ "> 20k Hz" := by
  interval_cases ni <;>
    exact ⟨string_ne_of_head _ _ _ '<' rfl rfl (by decide),
           string_ne_of_head _ _ _ '>' rfl rfl (by decide)⟩

theorem digitChar_ne : ∀ d : ℕ, d < 10 → digitChar d ≠ '<' ∧ digitChar d ≠ '>' := by
  decide

theorem decimalDigits_cons (m : ℕ) (hm : m ≠ 0) :
    ∃ d rest, d < 10 ∧ decimalDigits m = digitChar d :: rest := by
  have hne : Nat.digits 10 m ≠ [] := Nat.digits_ne_nil_iff_ne_zero.mpr hm
  have hrne : (Nat.digits 10 m).reverse ≠ [] := by simpa using hne
  obtain ⟨d, rest, hrev⟩ := List.exists_cons_of_ne_nil hrne
  refine ⟨d, rest.map digitChar, ?_, ?_⟩
  · have hmem : d ∈ Nat.digits 10 m := by
      have hm2 : d ∈ (Nat.digits 10 m).reverse := by rw [hrev]; simp
      simpa using hm2
    exact Nat.digits_lt_base (by norm_num) hmem
  · rw [decimalDigits, hrev, List.map_cons]

theorem hzString_eq (f : ℝ) (hf : (20 : ℝ) ≤ f) :
    ∃ d rest, d < 10 ∧ hzString f = String.mk (digitChar d :: rest) ++ " Hz" := by
  have h1 : (1 : ℤ) ≤ ⌊f + 1 / 2⌋ := Int.le_floor.mpr (by push_cast; linarith)
  have hneg : ¬ ⌊f + 1 / 2⌋ < 0 := by omega
  have hm : (⌊f + 1 / 2⌋).toNat ≠ 0 := by omega
  obtain ⟨d, rest, hd, hdd⟩ := decimalDigits_cons (⌊f + 1 / 2⌋).toNat hm
  refine ⟨d, rest, hd, ?_⟩
  rw [hzString, intToString, if_neg hneg, natToString, if_neg hm, hdd]

theorem hzString_ne (f : ℝ) (hf : (20 : ℝ) ≤ f) :
    hzString f ≠ "< 20 Hz" ∧ hzString f ≠ "> 20k Hz" := by
  obtain ⟨d, rest, hd, heq⟩ := hzString_eq f hf
  rw [heq]
  obtain ⟨hd1, hd2⟩ := digitChar_ne d hd
  exact ⟨string_ne_of_head _ _ _ '<' rfl rfl hd1,
         string_ne_of_head _ _ _ '>' rfl rfl hd2⟩

theorem rpow_ratio_pow (x : ℝ) (hx : 0 ≤ x) (p q : ℕ) (hq : q ≠ 0) :
    (x ^ ((p : ℝ) / (q : ℝ))) ^ (q : ℕ) = x ^ (p : ℕ) := by
  rw [← Real.rpow_natCast (x ^ ((p : ℝ) / (q : ℝ))) q, ← Real.rpow_mul hx,
    div_mul_cancel₀ _ (by exact_mod_cast hq), Real.rpow_natCast]

theorem le_rpow_ratio {a x : ℝ} {p q : ℕ} (hx : 0 ≤ x) (ha : 0 ≤ a) (hq : q ≠ 0)
    (h : a ^ q ≤ x ^ p) : a ≤ x ^ ((p : ℝ) / (q : ℝ)) := by
  refine (pow_le_pow_iff_left₀ ha (Real.rpow_nonneg hx _) hq).mp ?_
  rw [rpow_ratio_pow x hx p q hq]
  exact h

theorem lt_rpow_ratio {a x : ℝ} {p q : ℕ} (hx : 0 ≤ x) (ha : 0 ≤ a) (hq : q ≠ 0)
    (h : a ^ q < x ^ p) : a < x ^ ((p : ℝ) / (q : ℝ)) := by
  refine (pow_lt_pow_iff_left₀ ha (Real.rpow_nonneg hx _) hq).mp ?_
  rw [rpow_ratio_pow x hx p q hq]
  exact h

theorem rpow_ratio_lt {a x : ℝ} {p q : ℕ} (hx : 0 ≤ x) (ha : 0 ≤ a) (hq : q ≠ 0)
    (h : x ^ p < a ^ q) : x ^ ((p : ℝ) / (q : ℝ)) < a := by
  refine (pow_lt_pow_iff_left₀ (Real.rpow_nonneg hx _) ha hq).mp ?_
  rw [rpow_ratio_pow x hx p q hq]
  exact h

theorem semitonesFromC0_nonneg (f : ℝ) (hf : (20 : ℝ) ≤ f) :
    0 ≤ semitonesFromC0 f := by
  have h22 : Real.logb 2 22 ≤ 19 / 4 := by
    rw [show (19 : ℝ) / 4 = ((19 : ℕ) : ℝ) / ((4 : ℕ) : ℝ) by norm_num]
    rw [Real.logb_le_iff_le_rpow one_lt_two (by norm_num)]
    exact le_rpow_ratio (by norm_num) (by norm_num) (by norm_num) (by norm_num)
  have hmon : Real.logb 2 (20 / 440) ≤ Real.logb 2 (f / 440) :=
    Real.logb_le_logb_of_le one_lt_two (by norm_num) (by linarith)
  have hval : Real.logb 2 (20 / 440) = -Real.logb 2 22 := by
    rw [show (20 : ℝ) / 440 = (22 : ℝ)⁻¹ by norm_num, Real.logb_inv]
  rw [semitonesFromC0, semitonesFromA4]
  rw [hval] at hmon
  linarith

theorem noteIndexOf_lt (f : ℝ) (hs : 0 ≤ semitonesFromC0 f) : noteIndexOf f < 12 := by
  set s := semitonesFromC0 f with hsdef
  have hdiv : 0 ≤ s / 12 := by positivity
  have htr : rtrunc (s / 12) = ⌊s / 12⌋ := by
    rw [rtrunc, if_neg (not_lt.mpr hdiv)]
  have hfl := Int.floor_le (s / 12)
  have hfu := Int.lt_floor_add_one (s / 12)
  have hlt : fmod s 12 < 12 := by
    rw [fmod, htr]
    have : s / 12 < ⌊s / 12⌋ + 1 := hfu
    nlinarith
  have hge : 0 ≤ fmod s 12 := by
    rw [fmod, htr]
    nlinarith
  rw [noteIndexOf, ← hsdef]
  exact (Nat.floor_lt hge).mpr (by exact_mod_cast hlt)

theorem octaveOf_nonneg (f : ℝ) (hf : (20 : ℝ) ≤ f) : 0 ≤ octaveOf f := by
  rw [octaveOf, Int.floor_nonneg]
  have := semitonesFromC0_nonneg f hf
  positivity

theorem octaveOf_lt_iff (f : ℝ) (hf : 0 < f) :
    octaveOf f < 10 ↔ f < 440 * (2 : ℝ) ^ ((63 : ℝ) / 12) := by
  rw [octaveOf, Int.floor_lt]
  have h1 : semitonesFromC0 f / 12 < ((10 : ℤ) : ℝ) ↔ semitonesFromC0 f < 120 := by
    push_cast
    constructor <;> intro h <;> linarith
  rw [h1, semitonesFromC0, semitonesFromA4]
  have h2 : 12 * Real.logb 2 (f / 440) + 57 < 120 ↔
      Real.logb 2 (f / 440) < (63 : ℝ) / 12 := by
    constructor <;> intro h <;> linarith
  rw [h2, Real.logb_lt_iff_lt_rpow one_lt_two (by positivity)]
  rw [div_lt_iff₀ (by norm_num : (0 : ℝ) < 440)]
  constructor <;> intro h <;> linarith

theorem c10_threshold_eq :
    440 * (2 : ℝ) ^ ((63 : ℝ) / 12) = 14080 * (2 : ℝ) ^ ((1 : ℝ) / 4) := by
  have h1 : (63 : ℝ) / 12 = 5 + 1 / 4 := by norm_num
  rw [h1, Real.rpow_add (by norm_num : (0 : ℝ) < 2)]
  have h2 : (2 : ℝ) ^ (5 : ℝ) = 32 := by
    rw [show (5 : ℝ) = ((5 : ℕ) : ℝ) by norm_num, Real.rpow_natCast]
    norm_num
  rw [h2]
  ring

theorem c10_threshold_bounds :
    (16744 : ℝ) < 440 * (2 : ℝ) ^ ((63 : ℝ) / 12) ∧
      440 * (2 : ℝ) ^ ((63 : ℝ) / 12) < 16745 := by
  rw [c10_threshold_eq]
  constructor
  · have h : (16744 : ℝ) / 14080 < (2 : ℝ) ^ ((1 : ℝ) / 4) := by
      rw [show ((1 : ℝ) / 4) = ((1 : ℕ) : ℝ) / ((4 : ℕ) : ℝ) by norm_num]
      exact lt_rpow_ratio (by norm_num) (by norm_num) (by norm_num) (by norm_num)
    rw [div_lt_iff₀ (by norm_num : (0 : ℝ) < 14080)] at h
    linarith
  · have h : (2 : ℝ) ^ ((1 : ℝ) / 4) < (16745 : ℝ) / 14080 := by
      rw [show ((1 : ℝ) / 4) = ((1 : ℕ) : ℝ) / ((4 : ℕ) : ℝ) by norm_num]
      exact rpow_ratio_lt (by norm_num) (by norm_num) (by norm_num) (by norm_num)
    rw [lt_div_iff₀ (by norm_num : (0 : ℝ) < 14080)] at h
    linarith

theorem c10_threshold_lt_band31 :
    440 * (2 : ℝ) ^ ((63 : ℝ) / 12) < get_band_frequency 31 := by
  rw [c10_threshold_eq, get_band_frequency_eq]
  have he : (((31 : ℕ) : ℝ) + 0.5) / 32 = 1 - (1 : ℝ) / 64 := by norm_num
  rw [he, Real.rpow_sub (by norm_num : (0 : ℝ) < 1000), Real.rpow_one]
  have hc : (2 : ℝ) ^ ((1 : ℝ) / 4) < 119 / 100 := by
    rw [show ((1 : ℝ) / 4) = ((1 : ℕ) : ℝ) / ((4 : ℕ) : ℝ) by norm_num]
    exact rpow_ratio_lt (by norm_num) (by norm_num) (by norm_num) (by norm_num)
  have hepos : (0 : ℝ) < (1000 : ℝ) ^ ((1 : ℝ) / 64) := by positivity
  have hen : (1000 : ℝ) ^ ((1 : ℝ) / 64) < 112 / 100 := by
    rw [show ((1 : ℝ) / 64) = ((1 : ℕ) : ℝ) / ((64 : ℕ) : ℝ) by norm_num]
    exact rpow_ratio_lt (by norm_num) (by norm_num) (by norm_num) (by norm_num)
  have hchain : (20 : ℝ) * (1000 / (112 / 100)) <
      20 * (1000 / (1000 : ℝ) ^ ((1 : ℝ) / 64)) := by
    have := div_lt_div_of_pos_left (by norm_num : (0 : ℝ) < 1000) hepos hen
    linarith
  have hleft : 14080 * (2 : ℝ) ^ ((1 : ℝ) / 4) < 14080 * (119 / 100) := by
    have h0 : (0 : ℝ) < 14080 := by norm_num
    nlinarith
  calc 14080 * (2 : ℝ) ^ ((1 : ℝ) / 4) < 14080 * (119 / 100) := hleft
    _ < 20 * (1000 / (112 / 100)) := by norm_num
    _ < 20 * (1000 / (1000 : ℝ) ^ ((1 : ℝ) / 64)) := hchain

/-- Claim C10: `frequency_to_note` returns the low sentinel exactly when the input is
below 20 Hz and the high sentinel exactly when it is above 20000 Hz; inside the
accepted range [20, 20000] the computed octave is at least 0 and the note index is
in range, a note name with its octave is returned exactly when the computed octave is
below 10 — equivalently when the frequency is below C10 = 440·2^(63/12) Hz, a value
between 16744 and 16745 Hz — and for larger frequencies, which include the highest
band centre frequency `get_band_frequency 31`, the frequency rendered in Hz is
returned instead. -/
theorem frequency_to_note_spec (f : ℝ) :
    (frequency_to_note f = "< 20 Hz" ↔ f < 20) ∧
    (frequency_to_note f = "> 20k Hz" ↔ f > 20000) ∧
    (20 ≤ f → f ≤ 20000 →
      (0 ≤ octaveOf f ∧ noteIndexOf f < 12) ∧
      (octaveOf f < 10 →
        frequency_to_note f = noteString (noteIndexOf f) (octaveOf f)) ∧
      (10 ≤ octaveOf f → frequency_to_note f = hzString f) ∧
      (octaveOf f < 10 ↔ f < 440 * (2 : ℝ) ^ ((63 : ℝ) / 12))) ∧
    ((16744 : ℝ) < 440 * (2 : ℝ) ^ ((63 : ℝ) / 12) ∧
      440 * (2 : ℝ) ^ ((63 : ℝ) / 12) < 16745) ∧
    (440 * (2 : ℝ) ^ ((63 : ℝ) / 12) < get_band_frequency 31 ∧
      get_band_frequency 31 ≤ 20000) := by
  have hnotes : notes.length = 12 := rfl
  refine ⟨?_, ?_, ?_, c10_threshold_bounds,
    ⟨c10_threshold_lt_band31, get_band_frequency_upper (by norm_num)⟩⟩
  · constructor
    · intro h
      by_contra hnot
      push_neg at hnot
      by_cases h2 : f > 20000
      · rw [frequency_to_note, if_neg (not_lt.mpr hnot), if_pos h2] at h
        exact absurd h (by decide)
      · rw [frequency_to_note, if_neg (not_lt.mpr hnot), if_neg h2] at h
        by_cases h3 : 0 ≤ octaveOf f ∧ octaveOf f < 10 ∧ noteIndexOf f < notes.length
        · rw [if_pos h3] at h
          exact absurd h (noteString_ne _ (hnotes ▸ h3.2.2) _).1
        · rw [if_neg h3] at h
          exact absurd h (hzString_ne f hnot).1
    · intro h
      rw [frequency_to_note, if_pos h]
  · constructor
    · intro h
      by_contra hnot
      push_neg at hnot
      by_cases h1 : f < 20
      · rw [frequency_to_note, if_pos h1] at h
        exact absurd h (by decide)
      · push_neg at h1
        rw [frequency_to_note, if_neg (not_lt.mpr h1), if_neg (not_lt.mpr hnot)] at h
        by_cases h3 : 0 ≤ octaveOf f ∧ octaveOf f < 10 ∧ noteIndexOf f < notes.length
        · rw [if_pos h3] at h
          exact absurd h (noteString_ne _ (hnotes ▸ h3.2.2) _).2
        · rw [if_neg h3] at h
          exact absurd h (hzString_ne f h1).2
    · intro h
      have h1 : ¬ f < 20 := by push_neg; linarith
      rw [frequency_to_note, if_neg h1, if_pos h]
  · intro h20 h2e4
    have hs0 := semitonesFromC0_nonneg f h20
    have hoct0 := octaveOf_nonneg f h20
    have hni := noteIndexOf_lt f hs0
    have hn1 : ¬ f < 20 := not_lt.mpr h20
    have hn2 : ¬ f > 20000 := not_lt.mpr h2e4
    refine ⟨⟨hoct0, hni⟩, ?_, ?_, octaveOf_lt_iff f (by linarith)⟩
    · intro ho
      have hcond : 0 ≤ octaveOf f ∧ octaveOf f < 10 ∧ noteIndexOf f < notes.length :=
        ⟨hoct0, ho, by rw [hnotes]; exact hni⟩
      rw [frequency_to_note, if_neg hn1, if_neg hn2, if_pos hcond]
    · intro ho
      have hcond :
          ¬ (0 ≤ octaveOf f ∧ octaveOf f < 10 ∧ noteIndexOf f < notes.length) :=
        fun hc => absurd hc.2.1 (not_lt.mpr ho)
      rw [frequency_to_note, if_neg hn1, if_neg hn2, if_neg hcond]

/-- Witness for C10 at frequencies 10 Hz and 30000 Hz. -/
theorem frequency_to_note_spec_witness :
    frequency_to_note 10 = "< 20 Hz" ∧ frequency_to_note 30000 = "> 20k Hz" :=
  ⟨(frequency_to_note_spec 10).1.mpr (by norm_num),
   (frequency_to_note_spec 30000).2.1.mpr (by norm_num)⟩

end RustKorg
